import Mathlib

/-!
Shallow embedding of `src/perf_report_generator.py`.

Python floats are modelled as rationals (`ℚ`); Python's insertion-ordered
dictionaries are modelled as association lists in which a fresh key is
appended at the end; Python's stable `list.sort` is modelled by the stable
`List.insertionSort`; code that can raise and be caught (row parsing,
`float` conversion) returns `Option`.
-/

namespace PerfReport

/-- One row of a comparison table (`BenchmarkResult` dataclass). -/
structure BenchmarkResult where
  name : String
  profile : String
  scenario : String
  backend : String
  target : String
  change : ℚ
  sig_threshold : ℚ
  sig_factor : ℚ
  before_raw : ℚ
  after_raw : ℚ
deriving DecidableEq

/-- A named collection of results (`BenchTable` dataclass). -/
structure BenchTable where
  name : String
  results : List BenchmarkResult
deriving DecidableEq

/-- Python's `s[:-1]`: drop the final character (an empty string stays empty). -/
def dropLastChar (s : String) : String := ⟨s.data.dropLast⟩

/-- Python's `s.replace(',', '')`: remove every comma. -/
def removeCommas (s : String) : String := ⟨s.data.filter (fun c => c != ',')⟩

/-- Models `BenchmarkResult.parse_number`: `float(s.replace(',', ''))`, the stdlib
`float` text-to-number conversion abstracted as the parameter `toNum`
(failure = `ValueError`). -/
def parse_number (toNum : String → Option ℚ) (s : String) : Option ℚ :=
  toNum (removeCommas s)

/-- Models `BenchmarkResult.parse_from_row`: positional extraction at column indices
1..10; an out-of-range index (`IndexError`) or a failing conversion
(`ValueError`) makes the whole row fail. -/
def parse_from_row (toNum : String → Option ℚ) (raw_row : List String) :
    Option BenchmarkResult := do
  let name ← raw_row.get? 1
  let profile ← raw_row.get? 2
  let scenario ← raw_row.get? 3
  let backend ← raw_row.get? 4
  let target ← raw_row.get? 5
  let c6 ← raw_row.get? 6
  let change ← parse_number toNum (dropLastChar c6)
  let c7 ← raw_row.get? 7
  let sig_threshold ← parse_number toNum (dropLastChar c7)
  let c8 ← raw_row.get? 8
  let sig_factor ← parse_number toNum (dropLastChar c8)
  let c9 ← raw_row.get? 9
  let before_raw ← parse_number toNum c9
  let c10 ← raw_row.get? 10
  let after_raw ← parse_number toNum c10
  pure { name := name, profile := profile, scenario := scenario,
         backend := backend, target := target, change := change,
         sig_threshold := sig_threshold, sig_factor := sig_factor,
         before_raw := before_raw, after_raw := after_raw }

/-- One table as found on the page, before conversion: its DOM `id` and,
when a `tbody` is present, its rows of cell texts. -/
structure RawTable where
  id : String
  body : Option (List (List String))

/-- The body of one `tables` loop iteration of `parse_benchmark_tables`:
everything inside the `try` block; any failure (`none`) is the caught
exception that makes the table be skipped. -/
def parseTable (toNum : String → Option ℚ) (t : RawTable) : Option BenchTable := do
  let rows ← t.body
  let results ← rows.mapM (parse_from_row toNum)
  pure { name := t.id, results := results }

/-- Models `parse_benchmark_tables`: successfully parsed tables are kept in order,
failing ones are skipped. -/
def parse_benchmark_tables (toNum : String → Option ℚ) (tables : List RawTable) :
    List BenchTable :=
  tables.filterMap (parseTable toNum)

/-- Models `'::'.join([table.name, res.name, res.profile, res.scenario])`. -/
def bench_full_name (tableName : String) (r : BenchmarkResult) : String :=
  String.intercalate "::" [tableName, r.name, r.profile, r.scenario]

/-- Lookup in an association list standing for a Python dict. -/
def dictFind {α : Type} (d : List (String × α)) (k : String) : Option α :=
  (d.find? (fun p => p.1 == k)).map (fun p => p.2)

/-- Models `get_or_create(d, key, default)` followed by an in-place update `f` of the
entry `d[key]`: an existing entry is updated in place, a missing key is
inserted at the end (Python dict insertion order) holding `f default`. -/
def upsertWith {α : Type} : List (String × α) → String → α → (α → α) → List (String × α)
  | [], key, dflt, f => [(key, f dflt)]
  | p :: d, key, dflt, f =>
      if p.1 == key then (p.1, f p.2) :: d else p :: upsertWith d key dflt f

/-- The per-key inner dict `dict[str, list[float]]` of the accumulation. -/
abbrev InnerDict := List (String × List ℚ)

/-- The outer accumulation dict `benches_results : dict[str, dict[str, list[float]]]`. -/
abbrev OuterDict := List (String × InnerDict)

/-- Models `get_or_create(bench_results, field, []).append(x)`. -/
def appendAt (v : InnerDict) (field : String) (x : ℚ) : InnerDict :=
  upsertWith v field [] (fun l => l ++ [x])

/-- The two appends performed for one `BenchmarkResult`: its `change` and its
`after_raw - before_raw` difference. -/
def updInner (v : InnerDict) (r : BenchmarkResult) : InnerDict :=
  appendAt (appendAt v "change" r.change) "raw_change" (r.after_raw - r.before_raw)

/-- One iteration of the inner loop of `aggregate_tables_data`. -/
def addResult (d : OuterDict) (tableName : String) (r : BenchmarkResult) : OuterDict :=
  upsertWith d (bench_full_name tableName r) [] (fun v => updInner v r)

/-- The inner loop of `aggregate_tables_data` over one table's results. -/
def aggStep (d : OuterDict) (t : BenchTable) : OuterDict :=
  t.results.foldl (fun d r => addResult d t.name r) d

/-- The accumulation loops of `aggregate_tables_data`, producing
`benches_results`. -/
def accumulate (tables : List BenchTable) : OuterDict :=
  tables.foldl aggStep []

/-- One row of final output (`AggregatedBenchData`): `values` in insertion
order, `ordered_values` sorted by field name. -/
structure AggregatedBenchData where
  name : String
  values : List (String × ℚ)
  ordered_values : List (String × ℚ)
deriving DecidableEq

/-- Comparison of `(field, total)` pairs by field name, the key function of
`self.ordered_values.sort(key = lambda x: x[0])`. -/
def keyLe (p q : String × ℚ) : Prop := p.1 ≤ q.1

instance : DecidableRel keyLe := fun p q => inferInstanceAs (Decidable (p.1 ≤ q.1))

instance : IsTotal (String × ℚ) keyLe := ⟨fun p q => le_total p.1 q.1⟩

instance : IsTrans (String × ℚ) keyLe := ⟨fun _ _ _ h h2 => le_trans h h2⟩

/-- Models `AggregatedBenchData.__init__` minus its assertion: sum each list of raw
values and sort the summed pairs by field name. -/
def AggregatedBenchData.ofRaw (name : String) (raw_values : InnerDict) :
    AggregatedBenchData :=
  let values := raw_values.map (fun p => (p.1, p.2.sum))
  { name := name, values := values,
    ordered_values := List.insertionSort keyLe values }

/-- Models `self.values[k]`; total with default `0` (the keys used are always
present, see the invariants proved below). -/
def valuesGet (a : AggregatedBenchData) (k : String) : ℚ :=
  (dictFind a.values k).getD 0

/-- The sort key of `aggregated_results.sort(key=lambda a: a.values['change'])`. -/
def changeLe (a b : AggregatedBenchData) : Prop :=
  valuesGet a "change" ≤ valuesGet b "change"

instance : DecidableRel changeLe :=
  fun a b => inferInstanceAs (Decidable (valuesGet a "change" ≤ valuesGet b "change"))

instance : IsTotal AggregatedBenchData changeLe :=
  ⟨fun a b => le_total (valuesGet a "change") (valuesGet b "change")⟩

instance : IsTrans AggregatedBenchData changeLe := ⟨fun _ _ _ h h2 => le_trans h h2⟩

/-- Models `aggregate_tables_data` up to (and including) the sort, returning the rows
that get serialized. -/
def aggregate_tables_data (tables : List BenchTable) : List AggregatedBenchData :=
  let filtered_results := (accumulate tables).filter (fun x => decide (0 < x.2.length))
  let mapped_results := filtered_results.map (fun x => AggregatedBenchData.ofRaw x.1 x.2)
  List.insertionSort changeLe mapped_results

/-- Models `AggregatedBenchData.to_csv_line`. -/
def AggregatedBenchData.to_csv_line (a : AggregatedBenchData) : String :=
  a.name ++ ";" ++ String.intercalate ";" (a.ordered_values.map (fun x => toString x.2)) ++ "\n"

/-- Models `serialize_results_to_csv`: the lines handed to `writelines`. -/
def serialize_results_to_csv (results : List AggregatedBenchData) : List String :=
  "Benchmark;SumChange;SumRawChange\n" :: results.map AggregatedBenchData.to_csv_line

/-- Models `add_query_param`: `base_url + f'{key}={value}&'`. -/
def add_query_param (base_url key value : String) : String :=
  base_url ++ key ++ "=" ++ value ++ "&"

/-- Models `construct_query_url`. -/
def construct_query_url (first_sha second_sha stat tab : String) : String :=
  let base_url := "https://perf.rust-lang.org/compare.html?"
  let base_url := add_query_param base_url "start" first_sha
  let base_url := add_query_param base_url "end" second_sha
  let base_url := add_query_param base_url "stat" stat
  let base_url := add_query_param base_url "tab" tab
  let base_url := add_query_param base_url "nonRelevant" "true"
  let base_url := add_query_param base_url "showRawData" "true"
  base_url

/-- What the external site/browser produces for one fetched URL: an alert
dialog, a loaded page holding the raw tables, or a page-load timeout. -/
inductive FetchOutcome where
  | alert
  | page (tables : List RawTable)
  | timeout

/-- Models `download_url`, with the browser session abstracted as the environment
`env` mapping a URL to what appears on it; `none` is the `exit(1)` taken on a
page-load timeout, otherwise the pair is `(alert_shown, raw tables)`. -/
def download_url (env : String → FetchOutcome) (url : String) :
    Option (Bool × List RawTable) :=
  match env url with
  | FetchOutcome.alert => some (true, [])
  | FetchOutcome.page tables => some (false, tables)
  | FetchOutcome.timeout => none

/-- Models `download_benchmarks_data`: build the URL, fetch it, return `[]` when an
alert was shown, otherwise parse the page's tables. -/
def download_benchmarks_data (env : String → FetchOutcome) (toNum : String → Option ℚ)
    (first_sha second_sha stat tab : String) : Option (List BenchTable) :=
  (download_url env (construct_query_url first_sha second_sha stat tab)).map
    (fun br => if br.1 then [] else parse_benchmark_tables toNum br.2)

/-- Models `download_tables`: iterate over the commit pairs, extending the table
list; `none` propagates the fatal timeout. -/
def download_tables (env : String → FetchOutcome) (toNum : String → Option ℚ)
    (commits : List (String × String)) : Option (List BenchTable) :=
  commits.foldl
    (fun acc p => acc.bind (fun tables =>
      (download_benchmarks_data env toNum p.1 p.2 "instructions:u" "compile").map
        (fun new => tables ++ new)))
    (some [])

/-- A value of the snapshot format. Modelled from the spec: the snapshot
serialization in `execute_download_command` / `execute_aggregate_command` is
performed by the external `pickle` library, whose only callers are in the
source; the spec fixes no format beyond round-trip fidelity, so the snapshot
is modelled as a tree of strings, numbers and sequences. -/
inductive SnapVal where
  | str (s : String)
  | num (q : ℚ)
  | arr (vs : List SnapVal)

/-- Modelled from the spec: pickling of one `BenchmarkResult`, one field per
slot in declaration order. -/
def encodeResult (r : BenchmarkResult) : SnapVal :=
  SnapVal.arr [SnapVal.str r.name, SnapVal.str r.profile, SnapVal.str r.scenario,
    SnapVal.str r.backend, SnapVal.str r.target, SnapVal.num r.change,
    SnapVal.num r.sig_threshold, SnapVal.num r.sig_factor,
    SnapVal.num r.before_raw, SnapVal.num r.after_raw]

/-- Modelled from the spec: unpickling of one `BenchmarkResult`. -/
def decodeResult : SnapVal → Option BenchmarkResult
  | SnapVal.arr [SnapVal.str name, SnapVal.str profile, SnapVal.str scenario,
      SnapVal.str backend, SnapVal.str target, SnapVal.num change,
      SnapVal.num sig_threshold, SnapVal.num sig_factor,
      SnapVal.num before_raw, SnapVal.num after_raw] =>
      some { name := name, profile := profile, scenario := scenario,
             backend := backend, target := target, change := change,
             sig_threshold := sig_threshold, sig_factor := sig_factor,
             before_raw := before_raw, after_raw := after_raw }
  | _ => none

/-- Modelled from the spec: pickling of one `BenchTable`. -/
def encodeTable (t : BenchTable) : SnapVal :=
  SnapVal.arr [SnapVal.str t.name, SnapVal.arr (t.results.map encodeResult)]

/-- Modelled from the spec: unpickling of one `BenchTable`. -/
def decodeTable : SnapVal → Option BenchTable
  | SnapVal.arr [SnapVal.str name, SnapVal.arr vs] =>
      (vs.mapM decodeResult).map (fun results => { name := name, results := results })
  | _ => none

/-- Modelled from the spec: `pickle.dump(tables, fout)` of
`execute_download_command`, producing the snapshot contents. -/
def pickle_dump (tables : List BenchTable) : SnapVal :=
  SnapVal.arr (tables.map encodeTable)

/-- Modelled from the spec: `pickle.load(fin)` of `execute_aggregate_command`,
reading the snapshot contents back. -/
def pickle_load : SnapVal → Option (List BenchTable)
  | SnapVal.arr vs => vs.mapM decodeTable
  | _ => none

/-! Spec-side definitions, used to state the aggregation claims. -/

/-- All `(table name, result)` occurrences of a list of tables, in traversal
order of the two accumulation loops. -/
def pairsOf : List BenchTable → List (String × BenchmarkResult)
  | [] => []
  | t :: ts => t.results.map (fun r => (t.name, r)) ++ pairsOf ts

/-- The results contributing to aggregation key `k`, in traversal order. -/
def contributionsOf (tables : List BenchTable) (k : String) : List BenchmarkResult :=
  ((pairsOf tables).filter (fun p => bench_full_name p.1 p.2 == k)).map (fun p => p.2)

/-- The inner accumulation dict currently held for key `k` (empty when the
key is absent). -/
def innerValue (d : OuterDict) (k : String) : InnerDict :=
  (dictFind d k).getD []

/-- The list accumulated under field `field` of an inner dict. -/
def fieldList (v : InnerDict) (field : String) : List ℚ :=
  (dictFind v field).getD []

end PerfReport

namespace PerfReport

/-! ### Association-list dictionary lemmas -/

theorem dictFind_nil {α : Type} (k : String) :
    dictFind ([] : List (String × α)) k = none := rfl

theorem dictFind_cons {α : Type} (p : String × α) (d : List (String × α)) (k : String) :
    dictFind (p :: d) k = if p.1 == k then some p.2 else dictFind d k := by
  cases hb : (p.1 == k) with
  | true => simp [dictFind, List.find?_cons, hb]
  | false => simp [dictFind, List.find?_cons, hb]

theorem dictFind_upsertWith_self {α : Type} (d : List (String × α)) (key : String)
    (dflt : α) (f : α → α) :
    dictFind (upsertWith d key dflt f) key = some (f ((dictFind d key).getD dflt)) := by
  induction d with
  | nil => simp [upsertWith, dictFind_cons, dictFind_nil]
  | cons p d ih =>
    by_cases h : (p.1 == key) = true
    · rw [upsertWith, if_pos h, dictFind_cons, dictFind_cons, if_pos h, if_pos h]
      simp
    · rw [upsertWith, if_neg h, dictFind_cons, dictFind_cons, if_neg h, if_neg h]
      exact ih

theorem dictFind_upsertWith_other {α : Type} (d : List (String × α)) (key k : String)
    (dflt : α) (f : α → α) (h : key ≠ k) :
    dictFind (upsertWith d key dflt f) k = dictFind d k := by
  induction d with
  | nil =>
    rw [upsertWith, dictFind_cons, if_neg (by simpa using h)]
  | cons p d ih =>
    by_cases hp : (p.1 == key) = true
    · have hp1 : p.1 = key := by simpa using hp
      rw [upsertWith, if_pos hp, dictFind_cons, dictFind_cons,
        if_neg (by simpa using hp1 ▸ h), if_neg (by simpa using hp1 ▸ h)]
    · rw [upsertWith, if_neg hp, dictFind_cons, dictFind_cons, ih]

theorem mem_keys_upsertWith {α : Type} (d : List (String × α)) (key k : String)
    (dflt : α) (f : α → α) (h : k ∈ (upsertWith d key dflt f).map Prod.fst) :
    k ∈ d.map Prod.fst ∨ k = key := by
  induction d with
  | nil =>
    rw [upsertWith, List.map_cons] at h
    rcases List.mem_cons.1 h with h | h
    · exact Or.inr h
    · simp at h
  | cons p d ih =>
    by_cases hp : (p.1 == key) = true
    · rw [upsertWith, if_pos hp, List.map_cons] at h
      rcases List.mem_cons.1 h with h | h
      · exact Or.inl (by rw [List.map_cons]; exact List.mem_cons.2 (Or.inl h))
      · exact Or.inl (by rw [List.map_cons]; exact List.mem_cons.2 (Or.inr h))
    · rw [upsertWith, if_neg hp, List.map_cons] at h
      rcases List.mem_cons.1 h with h | h
      · exact Or.inl (by rw [List.map_cons]; exact List.mem_cons.2 (Or.inl h))
      · rcases ih h with h2 | h2
        · exact Or.inl (by rw [List.map_cons]; exact List.mem_cons.2 (Or.inr h2))
        · exact Or.inr h2

theorem nodupKeys_upsertWith {α : Type} (d : List (String × α)) (key : String)
    (dflt : α) (f : α → α) (h : (d.map Prod.fst).Nodup) :
    ((upsertWith d key dflt f).map Prod.fst).Nodup := by
  induction d with
  | nil => simp [upsertWith]
  | cons p d ih =>
    rw [List.map_cons, List.nodup_cons] at h
    by_cases hp : (p.1 == key) = true
    · rw [upsertWith, if_pos hp, List.map_cons, List.nodup_cons]
      exact ⟨h.1, h.2⟩
    · rw [upsertWith, if_neg hp, List.map_cons, List.nodup_cons]
      refine ⟨fun hmem => ?_, ih h.2⟩
      rcases mem_keys_upsertWith d key p.1 dflt f hmem with h2 | h2
      · exact h.1 h2
      · exact (by simpa using hp : ¬ p.1 = key) h2

theorem holds_of_mem_upsertWith {α : Type} (d : List (String × α)) (key : String)
    (dflt : α) (f : α → α) (P : α → Prop) (hd : ∀ p ∈ d, P p.2)
    (hdflt : P (f dflt)) (hf : ∀ v, P v → P (f v)) :
    ∀ q ∈ upsertWith d key dflt f, P q.2 := by
  induction d with
  | nil => intro q hq; simp [upsertWith] at hq; simp [hq, hdflt]
  | cons p d ih =>
    intro q hq
    by_cases hp : (p.1 == key) = true
    · rw [upsertWith, if_pos hp] at hq
      rcases List.mem_cons.1 hq with h | h
      · subst h; exact hf _ (hd p (List.mem_cons_self _ _))
      · exact hd q (List.mem_cons_of_mem _ h)
    · rw [upsertWith, if_neg hp] at hq
      rcases List.mem_cons.1 hq with h | h
      · subst h; exact hd q (List.mem_cons_self _ _)
      · exact ih (fun p2 hp2 => hd p2 (List.mem_cons_of_mem _ hp2)) q h

theorem dictFind_eq_of_mem {α : Type} (d : List (String × α)) (k : String) (v : α)
    (hnd : (d.map Prod.fst).Nodup) (hm : (k, v) ∈ d) : dictFind d k = some v := by
  induction d with
  | nil => simp at hm
  | cons p d ih =>
    rw [List.map_cons, List.nodup_cons] at hnd
    rcases List.mem_cons.1 hm with h | h
    · rw [← h, dictFind_cons, if_pos (by simp)]
    · have hk : k ∈ d.map Prod.fst := List.mem_map.2 ⟨(k, v), h, rfl⟩
      have hne : ¬ ((p.1 == k) = true) := by
        intro hb
        have hp1 : p.1 = k := by simpa using hb
        exact hnd.1 (by rw [hp1]; exact hk)
      rw [dictFind_cons, if_neg hne, ih hnd.2 h]

end PerfReport

namespace PerfReport

/-! ### Accumulation characterization -/

/-- The two nested accumulation loops, flattened over
`(table name, result)` occurrences. -/
def accumPairs (ps : List (String × BenchmarkResult)) (d : OuterDict) : OuterDict :=
  ps.foldl (fun d p => addResult d p.1 p.2) d

theorem accumPairs_cons (p : String × BenchmarkResult) (ps : List (String × BenchmarkResult))
    (d : OuterDict) : accumPairs (p :: ps) d = accumPairs ps (addResult d p.1 p.2) := rfl

theorem accumPairs_append (ps qs : List (String × BenchmarkResult)) (d : OuterDict) :
    accumPairs (ps ++ qs) d = accumPairs qs (accumPairs ps d) := by
  simp [accumPairs, List.foldl_append]

theorem foldl_aggStep_eq (tables : List BenchTable) (d : OuterDict) :
    tables.foldl aggStep d = accumPairs (pairsOf tables) d := by
  induction tables generalizing d with
  | nil => rfl
  | cons t ts ih =>
    rw [List.foldl_cons, ih, pairsOf, accumPairs_append]
    congr 1
    simp [aggStep, accumPairs, List.foldl_map]

theorem accumulate_eq_accumPairs (tables : List BenchTable) :
    accumulate tables = accumPairs (pairsOf tables) [] :=
  foldl_aggStep_eq tables []

theorem fieldList_updInner_change (v : InnerDict) (r : BenchmarkResult) :
    fieldList (updInner v r) "change" = fieldList v "change" ++ [r.change] := by
  unfold updInner fieldList appendAt
  rw [dictFind_upsertWith_other _ "raw_change" "change" _ _ (by decide),
    dictFind_upsertWith_self]
  simp

theorem fieldList_updInner_raw (v : InnerDict) (r : BenchmarkResult) :
    fieldList (updInner v r) "raw_change" =
      fieldList v "raw_change" ++ [r.after_raw - r.before_raw] := by
  unfold updInner fieldList appendAt
  rw [dictFind_upsertWith_self, dictFind_upsertWith_other _ "change" "raw_change" _ _ (by decide)]
  simp

theorem innerValue_addResult_eq (d : OuterDict) (tn : String) (r : BenchmarkResult)
    (k : String) (h : bench_full_name tn r = k) :
    innerValue (addResult d tn r) k = updInner (innerValue d k) r := by
  subst h
  unfold addResult innerValue
  rw [dictFind_upsertWith_self]
  simp

theorem innerValue_addResult_other (d : OuterDict) (tn : String) (r : BenchmarkResult)
    (k : String) (h : bench_full_name tn r ≠ k) :
    innerValue (addResult d tn r) k = innerValue d k := by
  unfold addResult innerValue
  rw [dictFind_upsertWith_other _ _ _ _ _ h]

theorem fieldList_accumPairs_change (ps : List (String × BenchmarkResult)) (d : OuterDict)
    (k : String) :
    fieldList (innerValue (accumPairs ps d) k) "change" =
      fieldList (innerValue d k) "change" ++
        (ps.filter (fun p => bench_full_name p.1 p.2 == k)).map (fun p => p.2.change) := by
  induction ps generalizing d with
  | nil => simp [accumPairs]
  | cons p ps ih =>
    rw [accumPairs_cons, ih]
    by_cases h : (bench_full_name p.1 p.2 == k) = true
    · have hk : bench_full_name p.1 p.2 = k := by simpa using h
      rw [innerValue_addResult_eq _ _ _ _ hk, fieldList_updInner_change, List.filter_cons]
      simp [h, List.append_assoc]
    · have hk : bench_full_name p.1 p.2 ≠ k := by simpa using h
      rw [innerValue_addResult_other _ _ _ _ hk, List.filter_cons]
      simp [h]

theorem fieldList_accumPairs_raw (ps : List (String × BenchmarkResult)) (d : OuterDict)
    (k : String) :
    fieldList (innerValue (accumPairs ps d) k) "raw_change" =
      fieldList (innerValue d k) "raw_change" ++
        (ps.filter (fun p => bench_full_name p.1 p.2 == k)).map
          (fun p => p.2.after_raw - p.2.before_raw) := by
  induction ps generalizing d with
  | nil => simp [accumPairs]
  | cons p ps ih =>
    rw [accumPairs_cons, ih]
    by_cases h : (bench_full_name p.1 p.2 == k) = true
    · have hk : bench_full_name p.1 p.2 = k := by simpa using h
      rw [innerValue_addResult_eq _ _ _ _ hk, fieldList_updInner_raw, List.filter_cons]
      simp [h, List.append_assoc]
    · have hk : bench_full_name p.1 p.2 ≠ k := by simpa using h
      rw [innerValue_addResult_other _ _ _ _ hk, List.filter_cons]
      simp [h]

theorem accumulate_change (tables : List BenchTable) (k : String) :
    fieldList (innerValue (accumulate tables) k) "change" =
      (contributionsOf tables k).map (fun r => r.change) := by
  rw [accumulate_eq_accumPairs, fieldList_accumPairs_change]
  simp [innerValue, dictFind_nil, fieldList, contributionsOf, List.map_map]

theorem accumulate_raw (tables : List BenchTable) (k : String) :
    fieldList (innerValue (accumulate tables) k) "raw_change" =
      (contributionsOf tables k).map (fun r => r.after_raw - r.before_raw) := by
  rw [accumulate_eq_accumPairs, fieldList_accumPairs_raw]
  simp [innerValue, dictFind_nil, fieldList, contributionsOf, List.map_map]

end PerfReport

namespace PerfReport

/-! ### Invariants of the accumulation dictionary -/

/-- The shape every inner dict ever stored has: exactly the two fields
`change` and `raw_change`, created in this order, holding equally long
non-empty lists. -/
def InnerShape (v : InnerDict) : Prop :=
  ∃ cs rs : List ℚ,
    v = [("change", cs), ("raw_change", rs)] ∧ cs.length = rs.length ∧ 0 < cs.length

theorem updInner_nil (r : BenchmarkResult) :
    updInner [] r = [("change", [r.change]), ("raw_change", [r.after_raw - r.before_raw])] := by
  have h2 : (("change" : String) == "raw_change") = false := by decide
  simp [updInner, appendAt, upsertWith, h2]

theorem updInner_pair (cs rs : List ℚ) (r : BenchmarkResult) :
    updInner [("change", cs), ("raw_change", rs)] r =
      [("change", cs ++ [r.change]),
       ("raw_change", rs ++ [r.after_raw - r.before_raw])] := by
  have h2 : (("change" : String) == "raw_change") = false := by decide
  simp [updInner, appendAt, upsertWith, h2]

theorem updInner_shape (v : InnerDict) (r : BenchmarkResult) (h : InnerShape v) :
    InnerShape (updInner v r) := by
  obtain ⟨cs, rs, hv, hlen, hpos⟩ := h
  subst hv
  refine ⟨cs ++ [r.change], rs ++ [r.after_raw - r.before_raw],
    updInner_pair cs rs r, by simp [hlen], by simp⟩

theorem shape_accumPairs (ps : List (String × BenchmarkResult)) (d : OuterDict)
    (h : ∀ p ∈ d, InnerShape p.2) : ∀ q ∈ accumPairs ps d, InnerShape q.2 := by
  induction ps generalizing d with
  | nil => exact h
  | cons p ps ih =>
    rw [accumPairs_cons]
    apply ih
    unfold addResult
    apply holds_of_mem_upsertWith d _ _ _ InnerShape h
    · exact ⟨[p.2.change], [p.2.after_raw - p.2.before_raw],
        updInner_nil p.2, by simp, by simp⟩
    · exact fun v hv => updInner_shape v p.2 hv

theorem nodupKeys_accumPairs (ps : List (String × BenchmarkResult)) (d : OuterDict)
    (h : (d.map Prod.fst).Nodup) : ((accumPairs ps d).map Prod.fst).Nodup := by
  induction ps generalizing d with
  | nil => exact h
  | cons p ps ih =>
    rw [accumPairs_cons]
    exact ih _ (nodupKeys_upsertWith _ _ _ _ h)

theorem shape_accumulate (tables : List BenchTable) :
    ∀ q ∈ accumulate tables, InnerShape q.2 := by
  rw [accumulate_eq_accumPairs]
  exact shape_accumPairs _ _ (by simp)

theorem nodupKeys_accumulate (tables : List BenchTable) :
    ((accumulate tables).map Prod.fst).Nodup := by
  rw [accumulate_eq_accumPairs]
  exact nodupKeys_accumPairs _ _ (by simp)

/-! ### The aggregated rows -/

theorem change_le_raw_string : ("change" : String) ≤ "raw_change" := by
  rw [String.le_iff_toList_le]
  decide

theorem ofRaw_pair (k : String) (cs rs : List ℚ) :
    AggregatedBenchData.ofRaw k [("change", cs), ("raw_change", rs)] =
      { name := k, values := [("change", cs.sum), ("raw_change", rs.sum)],
        ordered_values := [("change", cs.sum), ("raw_change", rs.sum)] } := by
  have hxy : keyLe ("change", cs.sum) ("raw_change", rs.sum) := change_le_raw_string
  simp [AggregatedBenchData.ofRaw, List.insertionSort, List.orderedInsert, hxy]

theorem dictFind_pair_change {α : Type} (c rc : α) :
    dictFind [("change", c), ("raw_change", rc)] "change" = some c := by
  rw [dictFind_cons, if_pos (by simp)]

theorem dictFind_pair_raw {α : Type} (c rc : α) :
    dictFind [("change", c), ("raw_change", rc)] "raw_change" = some rc := by
  have h2 : (("change" : String) == "raw_change") = false := by decide
  simp [dictFind_cons, h2]

/-- Inversion for membership in the aggregated output: every produced row
comes from a key of the accumulation dictionary holding a well-shaped
inner dict. -/
theorem mem_aggregate (tables : List BenchTable) (a : AggregatedBenchData)
    (h : a ∈ aggregate_tables_data tables) :
    ∃ v : InnerDict, dictFind (accumulate tables) a.name = some v ∧ InnerShape v ∧
      a = AggregatedBenchData.ofRaw a.name v := by
  unfold aggregate_tables_data at h
  rw [List.mem_insertionSort] at h
  obtain ⟨x, hx, hax⟩ := List.mem_map.1 h
  have hxa : x ∈ accumulate tables := List.mem_of_mem_filter hx
  have hname : a.name = x.1 := by
    rw [← hax]
    simp [AggregatedBenchData.ofRaw]
  refine ⟨x.2, ?_, shape_accumulate tables x hxa, ?_⟩
  · rw [hname]
    exact dictFind_eq_of_mem _ _ _ (nodupKeys_accumulate tables) (by simpa using hxa)
  · rw [hname, ← hax]

end PerfReport

namespace PerfReport

/-- Every aggregated row, resolved: its `values` hold exactly the totals
`change` and `raw_change` in this order, `ordered_values` coincides with
`values`, and its CSV line is key/change/raw-change joined by `;`. -/
theorem mem_aggregate_resolved (tables : List BenchTable) (a : AggregatedBenchData)
    (h : a ∈ aggregate_tables_data tables) :
    a.values = [("change", valuesGet a "change"), ("raw_change", valuesGet a "raw_change")] ∧
    a.ordered_values = a.values ∧
    a.to_csv_line = a.name ++ ";" ++ toString (valuesGet a "change") ++ ";" ++
      toString (valuesGet a "raw_change") ++ "\n" := by
  obtain ⟨v, hfind, hshape, hav⟩ := mem_aggregate tables a h
  obtain ⟨cs, rs, hv, hlen, hpos⟩ := hshape
  subst hv
  have hvv : a.values = [("change", cs.sum), ("raw_change", rs.sum)] := by
    conv_lhs => rw [hav]
    rw [ofRaw_pair]
  have hov : a.ordered_values = [("change", cs.sum), ("raw_change", rs.sum)] := by
    conv_lhs => rw [hav]
    rw [ofRaw_pair]
  have hc : valuesGet a "change" = cs.sum := by
    rw [valuesGet, hvv, dictFind_pair_change, Option.getD_some]
  have hr : valuesGet a "raw_change" = rs.sum := by
    rw [valuesGet, hvv, dictFind_pair_raw, Option.getD_some]
  refine ⟨?_, ?_, ?_⟩
  · rw [hvv, hc, hr]
  · rw [hov, hvv]
  · unfold AggregatedBenchData.to_csv_line
    rw [hov, hc, hr]
    show a.name ++ ";" ++ (toString cs.sum ++ ";" ++ toString rs.sum) ++ "\n" = _
    simp [String.append_assoc]

/-! ### The claims -/

/-- C1: every `BenchmarkResult` of every table contributes its `change` value
and its `after_raw - before_raw` difference to exactly one accumulation
bucket, the one keyed by table name, benchmark name, profile and scenario
joined with `::`; `backend` and `target` play no part in the key. -/
theorem C1_exactly_one_bucket (tables : List BenchTable) (k : String) :
    fieldList (innerValue (accumulate tables) k) "change" =
        (contributionsOf tables k).map (fun r => r.change) ∧
    fieldList (innerValue (accumulate tables) k) "raw_change" =
        (contributionsOf tables k).map (fun r => r.after_raw - r.before_raw) ∧
    (∀ (tableName : String) (r : BenchmarkResult),
        bench_full_name tableName r =
          tableName ++ "::" ++ r.name ++ "::" ++ r.profile ++ "::" ++ r.scenario) ∧
    (∀ (tableName : String) (r : BenchmarkResult) (b tg : String),
        bench_full_name tableName { r with backend := b, target := tg } =
          bench_full_name tableName r) :=
  ⟨accumulate_change tables k, accumulate_raw tables k,
    fun _ _ => rfl, fun _ _ _ _ => rfl⟩

/-- C2: for every produced row, the `change` total is the arithmetic sum of
the contributing results' `change` values, and the `raw_change` total is the
sum of their `after_raw - before_raw` differences. -/
theorem C2_sum_totals (tables : List BenchTable) (a : AggregatedBenchData)
    (h : a ∈ aggregate_tables_data tables) :
    valuesGet a "change" = ((contributionsOf tables a.name).map (fun r => r.change)).sum ∧
    valuesGet a "raw_change" =
      ((contributionsOf tables a.name).map (fun r => r.after_raw - r.before_raw)).sum := by
  obtain ⟨v, hfind, hshape, hav⟩ := mem_aggregate tables a h
  obtain ⟨cs, rs, hv, hlen, hpos⟩ := hshape
  subst hv
  have hcs : cs = (contributionsOf tables a.name).map (fun r => r.change) := by
    have h2 := accumulate_change tables a.name
    rw [innerValue, hfind] at h2
    simpa [fieldList, dictFind_pair_change] using h2
  have hrs : rs = (contributionsOf tables a.name).map (fun r => r.after_raw - r.before_raw) := by
    have h2 := accumulate_raw tables a.name
    rw [innerValue, hfind] at h2
    simpa [fieldList, dictFind_pair_raw] using h2
  have hvv : a.values = [("change", cs.sum), ("raw_change", rs.sum)] := by
    conv_lhs => rw [hav]
    rw [ofRaw_pair]
  constructor
  · rw [valuesGet, hvv, dictFind_pair_change, Option.getD_some, hcs]
  · rw [valuesGet, hvv, dictFind_pair_raw, Option.getD_some, hrs]

/-- A concrete result, table and aggregated row used by the witnesses. -/
def wRes : BenchmarkResult :=
  { name := "foo", profile := "opt", scenario := "full", backend := "llvm",
    target := "x86", change := 2, sig_threshold := 1, sig_factor := 5,
    before_raw := 100, after_raw := 200 }

def wTable : BenchTable := { name := "compile", results := [wRes] }

def wAgg : AggregatedBenchData :=
  AggregatedBenchData.ofRaw (bench_full_name "compile" wRes) (updInner [] wRes)

theorem C2_sum_totals_witness :
    wAgg ∈ aggregate_tables_data [wTable] ∧
      (valuesGet wAgg "change" =
          ((contributionsOf [wTable] wAgg.name).map (fun r => r.change)).sum ∧
       valuesGet wAgg "raw_change" =
          ((contributionsOf [wTable] wAgg.name).map
            (fun r => r.after_raw - r.before_raw)).sum) :=
  ⟨List.Mem.head _, C2_sum_totals [wTable] wAgg (List.Mem.head _)⟩

/-- C3: the rows produced by the aggregator (hence the data rows of the CSV)
are sorted non-decreasingly by the summed `change` total. -/
theorem C3_sorted_by_change (tables : List BenchTable) :
    List.Sorted changeLe (aggregate_tables_data tables) := by
  unfold aggregate_tables_data
  exact List.sorted_insertionSort changeLe _

/-- C4: the serialized CSV always starts with the header
`Benchmark;SumChange;SumRawChange` followed by exactly one line per
aggregated row; each data line is the composite key, the summed change and
the summed raw change separated by `;`, in this order. -/
theorem C4_csv_format (tables : List BenchTable) :
    serialize_results_to_csv (aggregate_tables_data tables) =
      "Benchmark;SumChange;SumRawChange\n" ::
        (aggregate_tables_data tables).map (fun a =>
          a.name ++ ";" ++ toString (valuesGet a "change") ++ ";" ++
            toString (valuesGet a "raw_change") ++ "\n") := by
  unfold serialize_results_to_csv
  congr 1
  exact List.map_congr_left (fun a ha => (mem_aggregate_resolved tables a ha).2.2)

/-- C5: every inner dict of the accumulation holds at least one value for
every key (so the non-emptiness assertion of `AggregatedBenchData.__init__`
never fires), and the defensive filter on non-empty inner dicts drops
nothing. -/
theorem C5_no_empty_aggregates (tables : List BenchTable) :
    (accumulate tables).filter (fun x => decide (0 < x.2.length)) = accumulate tables ∧
    (accumulate tables).all
      (fun x => decide (0 < (fieldList x.2 "change").length)) = true := by
  constructor
  · apply List.filter_eq_self.2
    intro x hx
    obtain ⟨cs, rs, hv, hlen, hpos⟩ := shape_accumulate tables x hx
    simp [hv]
  · rw [List.all_eq_true]
    intro x hx
    obtain ⟨cs, rs, hv, hlen, hpos⟩ := shape_accumulate tables x hx
    rw [hv]
    simp [fieldList, dictFind_pair_change, hpos]

/-- C10: every produced row carries exactly the two totals `change` and
`raw_change` (its two accumulated sequences have equal, positive length), and
its CSV line has exactly the two numeric fields after the key. -/
theorem C10_exactly_two_totals (tables : List BenchTable) (a : AggregatedBenchData)
    (h : a ∈ aggregate_tables_data tables) :
    a.values.map Prod.fst = ["change", "raw_change"] ∧
    a.ordered_values =
      [("change", valuesGet a "change"), ("raw_change", valuesGet a "raw_change")] ∧
    (∃ cs rs : List ℚ,
      dictFind (accumulate tables) a.name = some [("change", cs), ("raw_change", rs)] ∧
      cs.length = rs.length ∧ 0 < cs.length) ∧
    a.to_csv_line = a.name ++ ";" ++ toString (valuesGet a "change") ++ ";" ++
      toString (valuesGet a "raw_change") ++ "\n" := by
  obtain ⟨hvv, hov, hcsv⟩ := mem_aggregate_resolved tables a h
  obtain ⟨v, hfind, hshape, hav⟩ := mem_aggregate tables a h
  obtain ⟨cs, rs, hv, hlen, hpos⟩ := hshape
  refine ⟨by rw [hvv]; rfl, by rw [hov, hvv], ⟨cs, rs, by rw [hfind, hv], hlen, hpos⟩, hcsv⟩

theorem C10_exactly_two_totals_witness :
    wAgg ∈ aggregate_tables_data [wTable] ∧
      (wAgg.values.map Prod.fst = ["change", "raw_change"] ∧
       wAgg.ordered_values =
         [("change", valuesGet wAgg "change"), ("raw_change", valuesGet wAgg "raw_change")] ∧
       (∃ cs rs : List ℚ,
         dictFind (accumulate [wTable]) wAgg.name = some [("change", cs), ("raw_change", rs)] ∧
         cs.length = rs.length ∧ 0 < cs.length) ∧
       wAgg.to_csv_line = wAgg.name ++ ";" ++ toString (valuesGet wAgg "change") ++ ";" ++
         toString (valuesGet wAgg "raw_change") ++ "\n") :=
  ⟨List.Mem.head _, C10_exactly_two_totals [wTable] wAgg (List.Mem.head _)⟩

end PerfReport


namespace PerfReport

/-! ### Parser, downloader and snapshot claims -/

theorem length_parse_benchmark_tables (toNum : String → Option ℚ) (l : List RawTable) :
    (parse_benchmark_tables toNum l).length =
      (l.filter (fun x => (parseTable toNum x).isSome)).length := by
  induction l with
  | nil => rfl
  | cons t l ih =>
    unfold parse_benchmark_tables at ih ⊢
    rw [List.filterMap_cons, List.filter_cons]
    cases hpt : parseTable toNum t with
    | none => simpa [hpt] using ih
    | some bt => simpa [hpt] using ih

/-- C6: a table whose body is missing or whose rows do not convert is skipped
entirely without aborting, the remaining tables are still processed, and the
number of returned tables equals the number of input tables whose parse
succeeds. -/
theorem C6_skip_unparsable (toNum : String → Option ℚ) (ts ts2 : List RawTable)
    (t : RawTable) (h : parseTable toNum t = none) :
    parse_benchmark_tables toNum (ts ++ t :: ts2) =
      parse_benchmark_tables toNum ts ++ parse_benchmark_tables toNum ts2 ∧
    ∀ l : List RawTable,
      (parse_benchmark_tables toNum l).length =
        (l.filter (fun x => (parseTable toNum x).isSome)).length := by
  constructor
  · simp [parse_benchmark_tables, List.filterMap_append, List.filterMap_cons, h]
  · exact length_parse_benchmark_tables toNum

theorem C6_skip_unparsable_witness :
    parseTable (fun _ => none) { id := "t", body := none } = none ∧
    (parse_benchmark_tables (fun _ => none)
        ([] ++ { id := "t", body := none } :: [{ id := "u", body := some [] }]) =
      parse_benchmark_tables (fun _ => none) [] ++
        parse_benchmark_tables (fun _ => none) [{ id := "u", body := some [] }] ∧
     ∀ l : List RawTable,
       (parse_benchmark_tables (fun _ => none) l).length =
         (l.filter (fun x => (parseTable (fun _ => none) x).isSome)).length) :=
  ⟨rfl, C6_skip_unparsable (fun _ => none) [] [{ id := "u", body := some [] }]
    { id := "t", body := none } rfl⟩

/-- C7: row conversion extracts fields at the fixed column indices 1..10; the
cells at indices 6, 7 and 8 (`change`, `sig_threshold`, `sig_factor`) lose
their final character before conversion, and every numeric cell has all `,`
characters removed before conversion. -/
theorem C7_numeric_parsing (toNum : String → Option ℚ)
    (a0 a1 a2 a3 a4 a5 a6 a7 a8 a9 a10 : String) (rest : List String) :
    parse_from_row toNum (a0::a1::a2::a3::a4::a5::a6::a7::a8::a9::a10::rest) =
      (toNum (removeCommas (dropLastChar a6))).bind (fun change =>
      (toNum (removeCommas (dropLastChar a7))).bind (fun sig_threshold =>
      (toNum (removeCommas (dropLastChar a8))).bind (fun sig_factor =>
      (toNum (removeCommas a9)).bind (fun before_raw =>
      (toNum (removeCommas a10)).bind (fun after_raw =>
        some { name := a1, profile := a2, scenario := a3, backend := a4,
               target := a5, change := change, sig_threshold := sig_threshold,
               sig_factor := sig_factor, before_raw := before_raw,
               after_raw := after_raw }))))) := rfl

/-- C8: a commit pair whose fetch triggers an alert yields an empty table
list, and the run over the remaining commit pairs continues as if the pair
were absent. -/
theorem C8_alert_yields_empty (env : String → FetchOutcome) (toNum : String → Option ℚ)
    (pre post : List (String × String)) (a b : String)
    (h : env (construct_query_url a b "instructions:u" "compile") = FetchOutcome.alert) :
    download_benchmarks_data env toNum a b "instructions:u" "compile" = some [] ∧
    download_tables env toNum (pre ++ (a, b) :: post) =
      download_tables env toNum (pre ++ post) := by
  have hd : download_benchmarks_data env toNum a b "instructions:u" "compile" = some [] := by
    unfold download_benchmarks_data download_url
    rw [h]
    rfl
  refine ⟨hd, ?_⟩
  have hstep : ∀ acc : Option (List BenchTable),
      acc.bind (fun tables =>
        (download_benchmarks_data env toNum a b "instructions:u" "compile").map
          (fun new => tables ++ new)) = acc := by
    intro acc
    cases acc with
    | none => rfl
    | some ts => simp [hd]
  unfold download_tables
  simp only [List.foldl_append, List.foldl_cons]
  rw [hstep]

def wEnv : String → FetchOutcome := fun _ => FetchOutcome.alert

theorem C8_alert_yields_empty_witness :
    wEnv (construct_query_url "aaa" "bbb" "instructions:u" "compile") = FetchOutcome.alert ∧
    (download_benchmarks_data wEnv (fun _ => none) "aaa" "bbb" "instructions:u" "compile" =
        some [] ∧
     download_tables wEnv (fun _ => none) ([("x", "y")] ++ ("aaa", "bbb") :: []) =
       download_tables wEnv (fun _ => none) ([("x", "y")] ++ [])) :=
  ⟨rfl, C8_alert_yields_empty wEnv (fun _ => none) [("x", "y")] [] "aaa" "bbb" rfl⟩

theorem mapM_decodeResult (rs : List BenchmarkResult) :
    (rs.map encodeResult).mapM decodeResult = some rs := by
  induction rs with
  | nil => rfl
  | cons r rs ih =>
    rw [List.map_cons, List.mapM_cons]
    have h1 : decodeResult (encodeResult r) = some r := rfl
    rw [h1, ih]
    rfl

theorem decodeTable_encodeTable (t : BenchTable) : decodeTable (encodeTable t) = some t := by
  show ((t.results.map encodeResult).mapM decodeResult).map
      (fun results => ({ name := t.name, results := results } : BenchTable)) = some t
  rw [mapM_decodeResult]
  rfl

theorem mapM_decodeTable (ts : List BenchTable) :
    (ts.map encodeTable).mapM decodeTable = some ts := by
  induction ts with
  | nil => rfl
  | cons t ts ih =>
    rw [List.map_cons, List.mapM_cons, decodeTable_encodeTable, ih]
    rfl

/-- C9: writing a list of `BenchTable` to the snapshot in the download phase
and reading it back in the aggregate phase reproduces the list
field-for-field. -/
theorem C9_snapshot_roundtrip (tables : List BenchTable) :
    pickle_load (pickle_dump tables) = some tables :=
  mapM_decodeTable tables

end PerfReport
